import Mathlib

/-!
Verification of the suppression-interval engine and lint dispatch pipeline
of `linter/file.go`.

The Go code is embedded shallowly:

* `token.Position` values are reduced to their `Line` component (a `Nat`);
  the `Filename` field — constant per file — and the column are never read
  by the core logic and are omitted.
* Go maps keyed by rule name are embedded as association lists
  (`List (String × α)`) with `mapLookup` / `mapInsert` mirroring Go map
  read and write.
* The channel of `lint` is embedded as the output list: the per-rule
  batches are emitted in rule order, so the stream equals their
  concatenation.
* The regular-expression match and the rule-name splitting of
  `handleComment` are embedded by pre-parsed comments: a `Comment` carries
  its line and an `Option Directive` — `none` models a comment the
  directive regexp does not match (the function returns early), and for a
  match `Directive.enabled` is `parts[1] == "enable"`, `Directive.modifier`
  is `parts[2]` and `Directive.ruleNames` the split-and-trimmed name list.
-/

set_option linter.unusedVariables false

namespace CCLint

/-- Modelled from the spec: `ToggleEvent` — one entry of the per-rule
toggle history (`enableDisableConfig` in the source: its declaration is in
`file.go`, lines 108–111). -/
structure EnableDisableConfig where
  enabled : Bool
  position : Nat
deriving DecidableEq, Repr

/-- `math.MaxInt32`, the maximal-line sentinel used for the `To` line of an
interval that is never closed. -/
def maxInt32 : Nat := 2147483647

/-- Modelled from the spec: `SuppressionInterval` — the `DisabledInterval`
record built in `getEnabledDisabledIntervals`; `fromLine`/`toLine` are the
`Line` components of its `From`/`To` positions. -/
structure DisabledInterval where
  ruleName : String
  fromLine : Nat
  toLine : Nat
deriving DecidableEq, Repr

/-- Opaque handle standing for an `ast.Node` carried by a failure. -/
abbrev Node := Nat

/-- Modelled from the spec: the `{start, end}` line pair of a failure's
resolved `Range`. -/
structure FailurePosition where
  startLine : Nat
  endLine : Nat
deriving DecidableEq, Repr

/-- Modelled from the spec: `Diagnostic (Failure)` — the fields the core
reads and writes: rule name, optional node, resolved position, message. -/
structure Failure where
  ruleName : String
  node : Option Node
  position : FailurePosition
  message : String
deriving DecidableEq, Repr

/-- Modelled from the spec: opaque per-rule configuration arguments. -/
abbrev RuleArguments := List String

/-- Modelled from the spec: a `Rule` collaborator for one fixed file:
`name` is `Name()`, and `apply args` is the failure list returned by
`Apply(file, args)` on the file under analysis. -/
structure Rule where
  name : String
  apply : RuleArguments → List Failure

/-- Modelled from the spec: the caller-supplied configuration mapping,
`rulesConfig[name]` (a missing key yields the zero value). -/
abbrev RulesConfig := String → RuleArguments

/-- The parsed content of a directive comment: `enabled` is
`parts[1] == "enable"`, `modifier` is `parts[2]` (`""`, `"line"` or
`"next-line"`), `ruleNames` the split-and-trimmed rule-name list. -/
structure Directive where
  enabled : Bool
  modifier : String
  ruleNames : List String
deriving DecidableEq, Repr

/-- A comment of the file: its (resolved) line and, when the directive
regexp matches its text, the parsed directive. -/
structure Comment where
  line : Nat
  parsed : Option Directive
deriving DecidableEq, Repr

/-- Go map read: first entry with the given key, `none` when absent. -/
def mapLookup {α : Type} : List (String × α) → String → Option α
  | [], _ => none
  | (k, v) :: rest, key => if k = key then some v else mapLookup rest key

/-- Go map write: replace the entry with the given key, or add one. -/
def mapInsert {α : Type} : List (String × α) → String → α → List (String × α)
  | [], key, v => [(key, v)]
  | (k, w) :: rest, key, v =>
    if k = key then (key, v) :: rest else (k, w) :: mapInsert rest key v

/-- `enabledDisabledRulesMap`: accumulated toggle history per rule name. -/
abbrev RulesMap := List (String × List EnableDisableConfig)

/-- Per-rule suppression intervals, `disabledIntervalsMap` in the source. -/
abbrev DisabledIntervalsMap := List (String × List DisabledInterval)

/-- `existing[len(existing)-1].enabled == isEnabled`, guarded: `false` on an
empty list (in Go the index is only reached when the length check holds). -/
def lastEnabledIs (l : List EnableDisableConfig) (b : Bool) : Bool :=
  match l.getLast? with
  | some c => c.enabled == b
  | none => false

/-- `handleConfig` (`file.go` 147–162): append a toggle event to the rule's
history unless the history has more than one event and already ends in the
requested state, or is empty and the request is `enable`. A missing map
entry is materialised as the empty history exactly as the Go code does. -/
def handleConfig (m : RulesMap) (isEnabled : Bool) (line : Nat) (name : String) : RulesMap :=
  let existing := (mapLookup m name).getD []
  if (1 < existing.length ∧ lastEnabledIs existing isEnabled = true)
      ∨ (existing.length = 0 ∧ isEnabled = true) then
    mapInsert m name existing
  else
    mapInsert m name (existing ++ [{ enabled := isEnabled, position := line }])

/-- `handleRules` (`file.go` 164–178): record one directive for each named
rule; `line` scope writes the toggle and its revert at the comment's line,
`next-line` at the following line, no modifier writes a single toggle.
(The Go function also returns an always-empty interval slice, unused.) -/
def handleRules (modifier : String) (isEnabled : Bool) (line : Nat)
    (ruleNames : List String) (m : RulesMap) : RulesMap :=
  ruleNames.foldl (fun m name =>
    if modifier = "line" then
      handleConfig (handleConfig m isEnabled line name) (!isEnabled) line name
    else if modifier = "next-line" then
      handleConfig (handleConfig m isEnabled (line + 1) name) (!isEnabled) (line + 1) name
    else
      handleConfig m isEnabled line name) m

/-- `handleComment` (`file.go` 180–207) after the regexp and name-splitting
(embedded in `Comment.parsed`): an unmatched comment is ignored; an empty
rule-name list expands to the names of all currently registered rules. -/
def handleComment (rules : List Rule) (m : RulesMap) (c : Comment) : RulesMap :=
  match c.parsed with
  | none => m
  | some d =>
    let ruleNames := if d.ruleNames.isEmpty then rules.map Rule.name else d.ruleNames
    handleRules d.modifier d.enabled c.line ruleNames m

/-- `ruleResult[len(ruleResult)-1].To.Line = t`: rewrite the `To` line of
the last interval. Total: the empty case (a Go panic, unreachable because
the odd branch always follows an even append) is a no-op. -/
def updateLastTo : List DisabledInterval → Nat → List DisabledInterval
  | [], _ => []
  | [iv], t => [{ iv with toLine := t }]
  | iv :: iv2 :: rest, t => iv :: updateLastTo (iv2 :: rest) t

/-- The indexed loop of `getEnabledDisabledIntervals` (`file.go` 123–140):
an event at an even index appends an interval `[position, maxInt32]`, an
event at an odd index closes the last interval at its position. -/
def intervalsLoop (ruleName : String) :
    List EnableDisableConfig → Nat → List DisabledInterval → List DisabledInterval
  | [], _, ruleResult => ruleResult
  | cfg :: rest, i, ruleResult =>
    let ruleResult :=
      if i % 2 = 0 then ruleResult ++ [⟨ruleName, cfg.position, maxInt32⟩]
      else updateLastTo ruleResult cfg.position
    intervalsLoop ruleName rest (i + 1) ruleResult

/-- Interval list of one rule's toggle history (the inner loop of
`getEnabledDisabledIntervals`, run from index `0` on an empty result). -/
def getIntervalsForRule (ruleName : String) (disabledArr : List EnableDisableConfig) :
    List DisabledInterval :=
  intervalsLoop ruleName disabledArr 0 []

/-- `getEnabledDisabledIntervals` (`file.go` 118–145): interval lists for
every rule of the accumulated map. -/
def getEnabledDisabledIntervals (m : RulesMap) : DisabledIntervalsMap :=
  m.map (fun entry => (entry.1, getIntervalsForRule entry.1 entry.2))

/-- `disabledIntervals` (`file.go` 113–215): scan the comments in file
order, then convert the accumulated toggle histories into intervals. -/
def disabledIntervals (rules : List Rule) (comments : List Comment) : DisabledIntervalsMap :=
  getEnabledDisabledIntervals (comments.foldl (handleComment rules) [])

/-- The overlap test of `filterFailures` (`file.go` 230–231):
`(fStart >= intStart && fStart <= intEnd) || (fEnd >= intStart && fEnd <= intEnd)`. -/
def overlaps (fStart fEnd intStart intEnd : Nat) : Bool :=
  (decide (fStart ≥ intStart) && decide (fStart ≤ intEnd))
    || (decide (fEnd ≥ intStart) && decide (fEnd ≤ intEnd))

/-- `filterFailures` (`file.go` 217–242): keep a failure when its rule has
no interval entry, or when no interval of its rule passes the overlap test
(the Go `include`/`break` loop is the negated `List.any`). -/
def filterFailures (failures : List Failure) (dis : DisabledIntervalsMap) : List Failure :=
  failures.foldl (fun result failure =>
    match mapLookup dis failure.ruleName with
    | none => result ++ [failure]
    | some intervals =>
      let includeIt := !(intervals.any (fun interval =>
        overlaps failure.position.startLine failure.position.endLine
          interval.fromLine interval.toLine))
      if includeIt then result ++ [failure] else result) []

/-- The stamping loop body of `lint` (`file.go` 92–100): give a failure
with an empty rule name the current rule's name, and resolve the position
of a failure carrying a node through the (external) position resolver. -/
def stampFailure (ruleName : String) (toPos : Node → FailurePosition) (failure : Failure) :
    Failure :=
  let failure :=
    if failure.ruleName = "" then { failure with ruleName := ruleName } else failure
  match failure.node with
  | some n => { failure with position := toPos n }
  | none => failure

/-- `lint` (`file.go` 87–106): build the interval map, then for each rule
in caller order apply it, stamp its failures, filter them through the
interval map and emit the survivors; the channel output is the
concatenation of the per-rule batches. -/
def lint (rules : List Rule) (rulesConfig : RulesConfig) (toPos : Node → FailurePosition)
    (comments : List Comment) : List Failure :=
  let dis := disabledIntervals rules comments
  (rules.map (fun currentRule =>
    filterFailures
      ((currentRule.apply (rulesConfig currentRule.name)).map
        (stampFailure currentRule.name toPos))
      dis)).flatten

/-- `types.BasicKind`, restricted to the untyped kinds the source's
`basicTypeKinds` map names, plus one constructor for every other kind. -/
inductive BasicKind where
  | untypedBool
  | untypedInt
  | untypedRune
  | untypedFloat
  | untypedComplex
  | untypedString
  | otherKind
deriving DecidableEq, Repr

/-- The `basicTypeKinds` map (`file.go` 51–58); a kind outside the map is
`none` (the Go two-valued lookup with `ok = false`). -/
def basicTypeKinds : BasicKind → Option String
  | .untypedBool => some "bool"
  | .untypedInt => some "int"
  | .untypedRune => some "rune"
  | .untypedFloat => some "float64"
  | .untypedComplex => some "complex128"
  | .untypedString => some "string"
  | .otherKind => none

/-- The type part of a `types.TypeAndValue`: either a `*types.Basic` of
some kind (the successful type assertion) or any other type. -/
inductive GoType where
  | basic : BasicKind → GoType
  | nonBasic : GoType
deriving DecidableEq, Repr

/-- Outcome of the external `types.Eval` collaborator: a type, or an error. -/
inductive EvalOutcome where
  | ok : GoType → EvalOutcome
  | err : EvalOutcome
deriving DecidableEq, Repr

/-- Opaque handle standing for an `ast.Expr`. -/
abbrev Expr := Nat

/-- `IsUntypedConst` (`file.go` 63–78), with the re-evaluation of the
rendered expression (`types.Eval`) passed in as the external collaborator
`eval`: an evaluation error yields `("", false)`; otherwise the default
type name is looked up when the type is a basic kind of the map. -/
def IsUntypedConst (eval : Expr → EvalOutcome) (expr : Expr) : String × Bool :=
  match eval expr with
  | .err => ("", false)
  | .ok t =>
    match t with
    | .basic b =>
      match basicTypeKinds b with
      | some dt => (dt, true)
      | none => ("", false)
    | .nonBasic => ("", false)

/-! ### The spec's pairwise description of the interval construction -/

/-- The interval construction as the spec words it (for the refinement
comparison with `getIntervalsForRule`): the event at an even index opens an
interval at its line, the following odd-index event closes it at its line,
and an odd-length list leaves the final interval open to the sentinel. -/
def specPairing (ruleName : String) : List EnableDisableConfig → List DisabledInterval
  | [] => []
  | [a] => [⟨ruleName, a.position, maxInt32⟩]
  | a :: b :: rest => ⟨ruleName, a.position, b.position⟩ :: specPairing ruleName rest

/-- Weak ordering of an interval list: every interval's `From` is at most
its `To`, and every interval's `To` is at most the next interval's `From`
(adjacent intervals may share the boundary line). -/
def intervalsOrdered (l : List DisabledInterval) : Prop :=
  (∀ iv ∈ l, iv.fromLine ≤ iv.toLine) ∧
    List.Chain' (fun a b => a.toLine ≤ b.fromLine) l

/-! ### Association-list map lemmas -/

theorem mapLookup_mapInsert_self {α : Type} (m : List (String × α)) (k : String) (v : α) :
    mapLookup (mapInsert m k v) k = some v := by
  induction m with
  | nil => simp [mapInsert, mapLookup]
  | cons hd tl ih =>
    obtain ⟨k', v'⟩ := hd
    by_cases h : k' = k <;> simp [mapInsert, mapLookup, h, ih]

theorem mapLookup_mapInsert_ne {α : Type} (m : List (String × α)) (k k' : String) (v : α)
    (h : k' ≠ k) : mapLookup (mapInsert m k v) k' = mapLookup m k' := by
  have h' : k ≠ k' := Ne.symm h
  induction m with
  | nil => simp [mapInsert, mapLookup, h']
  | cons hd tl ih =>
    obtain ⟨k₀, v₀⟩ := hd
    by_cases h₀ : k₀ = k
    · subst h₀
      simp [mapInsert, mapLookup, h']
    · simp only [mapInsert, if_neg h₀, mapLookup]
      by_cases h₁ : k₀ = k' <;> simp [h₁, ih]

theorem mapInsert_eq_self_of_lookup {α : Type} (m : List (String × α)) (k : String) (v : α)
    (h : mapLookup m k = some v) : mapInsert m k v = m := by
  induction m with
  | nil => simp [mapLookup] at h
  | cons hd tl ih =>
    obtain ⟨k₀, v₀⟩ := hd
    by_cases h₀ : k₀ = k
    · subst h₀
      have hv : v₀ = v := by simpa [mapLookup] using h
      subst hv
      simp [mapInsert]
    · simp only [mapLookup, if_neg h₀] at h
      simp [mapInsert, h₀, ih h]

/-! ### Footprint of the toggle recording -/

theorem mapLookup_handleConfig_ne (m : RulesMap) (e : Bool) (line : Nat) (name name' : String)
    (h : name' ≠ name) :
    mapLookup (handleConfig m e line name) name' = mapLookup m name' := by
  simp only [handleConfig]
  split <;> exact mapLookup_mapInsert_ne _ _ _ _ h

theorem mapLookup_handleRules_of_not_mem (modifier : String) (e : Bool) (line : Nat) :
    ∀ (names : List String) (m : RulesMap) (name' : String), name' ∉ names →
      mapLookup (handleRules modifier e line names m) name' = mapLookup m name'
  | [], m, name', _ => rfl
  | n :: rest, m, name', h => by
    have hne : name' ≠ n := fun hh => h (hh ▸ List.mem_cons_self n rest)
    have hrest : name' ∉ rest := fun hh => h (List.mem_cons_of_mem _ hh)
    have hstep : ∀ m₀ : RulesMap,
        mapLookup (handleRules modifier e line rest m₀) name' = mapLookup m₀ name' :=
      fun m₀ => mapLookup_handleRules_of_not_mem modifier e line rest m₀ name' hrest
    show mapLookup (List.foldl _ _ (n :: rest)) name' = _
    rw [List.foldl_cons]
    have : mapLookup (handleRules modifier e line rest
        (if modifier = "line" then
          handleConfig (handleConfig m e line n) (!e) line n
        else if modifier = "next-line" then
          handleConfig (handleConfig m e (line + 1) n) (!e) (line + 1) n
        else
          handleConfig m e line n)) name' = mapLookup m name' := by
      rw [hstep]
      split
      · rw [mapLookup_handleConfig_ne _ _ _ _ _ hne, mapLookup_handleConfig_ne _ _ _ _ _ hne]
      split
      · rw [mapLookup_handleConfig_ne _ _ _ _ _ hne, mapLookup_handleConfig_ne _ _ _ _ _ hne]
      · rw [mapLookup_handleConfig_ne _ _ _ _ _ hne]
    exact this

/-! ### Interval construction lemmas -/

theorem updateLastTo_append_singleton (l : List DisabledInterval) (iv : DisabledInterval)
    (t : Nat) : updateLastTo (l ++ [iv]) t = l ++ [{ iv with toLine := t }] := by
  induction l with
  | nil => simp [updateLastTo]
  | cons hd tl ih =>
    cases tl with
    | nil => simp [updateLastTo]
    | cons hd2 tl2 => simpa [updateLastTo] using ih

theorem intervalsLoop_even_eq (ruleName : String) :
    ∀ (arr : List EnableDisableConfig) (i : Nat) (acc : List DisabledInterval),
      i % 2 = 0 → intervalsLoop ruleName arr i acc = acc ++ specPairing ruleName arr
  | [], i, acc, h => by simp [intervalsLoop, specPairing]
  | [a], i, acc, h => by simp [intervalsLoop, specPairing, h]
  | a :: b :: rest, i, acc, h => by
    have h1 : ¬((i + 1) % 2 = 0) := by omega
    have h2 : (i + 2) % 2 = 0 := by omega
    simp only [intervalsLoop, if_pos h, if_neg h1, specPairing]
    rw [updateLastTo_append_singleton,
      intervalsLoop_even_eq ruleName rest (i + 2) _ h2]
    simp

theorem getIntervalsForRule_eq_specPairing (ruleName : String)
    (arr : List EnableDisableConfig) :
    getIntervalsForRule ruleName arr = specPairing ruleName arr := by
  unfold getIntervalsForRule
  rw [intervalsLoop_even_eq ruleName arr 0 [] rfl]
  simp

theorem specPairing_append_of_even (ruleName : String) :
    ∀ (arr rest : List EnableDisableConfig), arr.length % 2 = 0 →
      specPairing ruleName (arr ++ rest) =
        specPairing ruleName arr ++ specPairing ruleName rest
  | [], rest, _ => by simp [specPairing]
  | [a], rest, h => by simp [List.length] at h
  | a :: b :: tl, rest, h => by
    have htl : tl.length % 2 = 0 := by
      simp only [List.length_cons] at h
      omega
    simp only [List.cons_append, specPairing, List.append_eq]
    rw [specPairing_append_of_even ruleName tl rest htl]

theorem specPairing_head_fromLine (ruleName : String) (c : EnableDisableConfig)
    (rest : List EnableDisableConfig) :
    ∀ iv ∈ (specPairing ruleName (c :: rest)).head?, iv.fromLine = c.position := by
  cases rest <;> simp [specPairing]

theorem specPairing_ordered (ruleName : String) :
    ∀ (arr : List EnableDisableConfig),
      List.Chain' (fun a b => a.position ≤ b.position) arr →
      (∀ c ∈ arr, c.position ≤ maxInt32) →
      intervalsOrdered (specPairing ruleName arr)
  | [], _, _ => by simp [specPairing, intervalsOrdered]
  | [a], _, hmax => by
    refine ⟨?_, ?_⟩
    · intro iv hiv
      simp only [specPairing, List.mem_singleton] at hiv
      subst hiv
      exact hmax a (List.mem_singleton_self a)
    · simp [specPairing]
  | a :: b :: rest, hmono, hmax => by
    have hab : a.position ≤ b.position := (List.chain'_cons.mp hmono).1
    have hmono' : List.Chain' (fun a b => a.position ≤ b.position) rest :=
      ((List.chain'_cons.mp hmono).2).tail
    have hmax' : ∀ c ∈ rest, c.position ≤ maxInt32 := fun c hc =>
      hmax c (List.mem_cons_of_mem _ (List.mem_cons_of_mem _ hc))
    obtain ⟨ihmem, ihchain⟩ := specPairing_ordered ruleName rest hmono' hmax'
    refine ⟨?_, ?_⟩
    · intro iv hiv
      simp only [specPairing, List.mem_cons] at hiv
      rcases hiv with rfl | hiv
      · exact hab
      · exact ihmem iv hiv
    · show List.Chain' _ (⟨ruleName, a.position, b.position⟩ :: specPairing ruleName rest)
      rw [List.chain'_cons']
      refine ⟨?_, ihchain⟩
      intro iv hiv
      cases rest with
      | nil => simp [specPairing] at hiv
      | cons c tl =>
        have hfrom : iv.fromLine = c.position := specPairing_head_fromLine ruleName c tl iv hiv
        have hbc : b.position ≤ c.position := (List.chain'_cons.mp (List.chain'_cons.mp hmono).2).1
        simpa [hfrom] using hbc

/-! ### Filter lemmas -/

theorem filterFailures_foldl_append (dis : DisabledIntervalsMap) :
    ∀ (fs : List Failure) (acc : List Failure),
      List.foldl (fun result failure =>
        match mapLookup dis failure.ruleName with
        | none => result ++ [failure]
        | some intervals =>
          let includeIt := !(intervals.any (fun interval =>
            overlaps failure.position.startLine failure.position.endLine
              interval.fromLine interval.toLine))
          if includeIt then result ++ [failure] else result) acc fs =
      acc ++ List.foldl (fun result failure =>
        match mapLookup dis failure.ruleName with
        | none => result ++ [failure]
        | some intervals =>
          let includeIt := !(intervals.any (fun interval =>
            overlaps failure.position.startLine failure.position.endLine
              interval.fromLine interval.toLine))
          if includeIt then result ++ [failure] else result) [] fs
  | [], acc => by simp
  | f :: fs, acc => by
    rw [List.foldl_cons, List.foldl_cons, filterFailures_foldl_append dis fs,
      filterFailures_foldl_append dis fs
        ((match mapLookup dis f.ruleName with
          | none => [] ++ [f]
          | some intervals =>
            let includeIt := !(intervals.any (fun interval =>
              overlaps f.position.startLine f.position.endLine
                interval.fromLine interval.toLine))
            if includeIt then [] ++ [f] else []))]
    cases hl : mapLookup dis f.ruleName with
    | none => simp
    | some intervals =>
      by_cases hov : (intervals.any (fun interval =>
          overlaps f.position.startLine f.position.endLine
            interval.fromLine interval.toLine)) = true <;>
        simp [hov]

theorem filterFailures_nil_map (fs : List Failure) : filterFailures fs [] = fs := by
  induction fs with
  | nil => rfl
  | cons f fs ih =>
    unfold filterFailures at *
    rw [List.foldl_cons, filterFailures_foldl_append]
    simpa [mapLookup] using ih

theorem filterFailures_singleton (f : Failure) (dis : DisabledIntervalsMap)
    (ivs : List DisabledInterval) (h : mapLookup dis f.ruleName = some ivs) :
    filterFailures [f] dis =
      if (ivs.any (fun interval =>
          overlaps f.position.startLine f.position.endLine
            interval.fromLine interval.toLine)) then [] else [f] := by
  unfold filterFailures
  rw [List.foldl_cons, List.foldl_nil]
  rw [h]
  by_cases hov : (ivs.any (fun interval =>
      overlaps f.position.startLine f.position.endLine
        interval.fromLine interval.toLine)) = true <;>
    simp [hov]

/-! ### Concrete scenario objects -/

/-- A registered rule named `a`, used by the concrete scenarios. -/
def ruleA : Rule := { name := "a", apply := fun _ => [⟨"a", none, ⟨5, 5⟩, "issue"⟩] }

/-- Two consecutive no-modifier `disable` directives for rule `a`, at
lines 3 and 5. -/
def commentsTwoDisables : List Comment :=
  [⟨3, some ⟨false, "", ["a"]⟩⟩, ⟨5, some ⟨false, "", ["a"]⟩⟩]

/-- A single no-modifier `disable` directive for rule `a` at line 3. -/
def commentsOneDisable : List Comment := [⟨3, some ⟨false, "", ["a"]⟩⟩]

/-- A `disable-next-line` for rule `a` at line 10 followed by a plain
`disable` for rule `a` at line 11. -/
def commentsSharedBoundary : List Comment :=
  [⟨10, some ⟨false, "next-line", ["a"]⟩⟩, ⟨11, some ⟨false, "", ["a"]⟩⟩]

/-- A `disable-line` directive for rule `a` at line 5. -/
def commentsDisableLine5 : List Comment := [⟨5, some ⟨false, "line", ["a"]⟩⟩]

/-- A `disable-next-line` directive for rule `a` at line 10. -/
def commentsDisableNextLine10 : List Comment :=
  [⟨10, some ⟨false, "next-line", ["a"]⟩⟩]

/-- A failure of rule `a` spanning lines 4–6. -/
def failSpan46 : Failure := ⟨"a", none, ⟨4, 6⟩, "spanning failure"⟩

/-- A failure of rule `a` spanning lines 10–12. -/
def failSpan1012 : Failure := ⟨"a", none, ⟨10, 12⟩, "spanning failure"⟩

/-- A failure of rule `a` on line 9 only. -/
def failLine9 : Failure := ⟨"a", none, ⟨9, 9⟩, "late failure"⟩

/-! ### Claim theorems -/

/-- C2: with the interval entry of the failure's rule looked up, the
failure survives `filterFailures` iff no interval of its rule passes the
overlap test; one interval marks it suppressed iff the failure's start
line or its end line lies within `[fromLine, toLine]` (both bounds
inclusive); and a failure whose two endpoints fall strictly outside an
interval is not matched by it, even when its span fully contains the
interval. -/
theorem C2_overlap_test (fail : Failure) (dis : DisabledIntervalsMap)
    (ivs : List DisabledInterval) (h : mapLookup dis fail.ruleName = some ivs) :
    (filterFailures [fail] dis = [fail] ↔
      ∀ iv ∈ ivs, overlaps fail.position.startLine fail.position.endLine
        iv.fromLine iv.toLine = false)
    ∧ (∀ iv : DisabledInterval,
        overlaps fail.position.startLine fail.position.endLine iv.fromLine iv.toLine = true ↔
          ((iv.fromLine ≤ fail.position.startLine ∧ fail.position.startLine ≤ iv.toLine) ∨
           (iv.fromLine ≤ fail.position.endLine ∧ fail.position.endLine ≤ iv.toLine)))
    ∧ (∀ iv : DisabledInterval, fail.position.startLine < iv.fromLine →
        iv.toLine < fail.position.endLine →
        overlaps fail.position.startLine fail.position.endLine iv.fromLine iv.toLine
          = false) := by
  refine ⟨?_, ?_, ?_⟩
  · rw [filterFailures_singleton fail dis ivs h]
    by_cases hany : (ivs.any (fun interval =>
        overlaps fail.position.startLine fail.position.endLine
          interval.fromLine interval.toLine)) = true
    · rw [if_pos hany]
      simp only [List.any_eq_true] at hany
      obtain ⟨iv, hiv, hov⟩ := hany
      constructor
      · intro hcontra
        simp at hcontra
      · intro hall
        rw [hall iv hiv] at hov
        simp at hov
    · rw [if_neg hany]
      simp only [List.any_eq_true, not_exists] at hany
      constructor
      · intro _ iv hiv
        push_neg at hany
        simpa using hany iv hiv
      · intro _
        rfl
  · intro iv
    simp [overlaps]
  · intro iv h1 h2
    simp only [overlaps]
    simp only [ge_iff_le, Bool.or_eq_false_iff, Bool.and_eq_false_iff,
      decide_eq_false_iff_not, not_le]
    omega

/-- Witness for C2: a failure of rule `a` spanning lines 4–6 survives
against the single interval `[5, 5]` of its rule. -/
theorem C2_overlap_test_witness :
    filterFailures [failSpan46] [("a", [⟨"a", 5, 5⟩])] = [failSpan46] := by
  have h := C2_overlap_test failSpan46 [("a", [⟨"a", 5, 5⟩])] [⟨"a", 5, 5⟩] (by rfl)
  exact h.1.mpr (by decide)

/-- C4: for a rule with no accumulated toggle history, an `enable-line`
(or `enable-next-line`) directive records exactly one disable toggle event
at the affected line — the leading enable event is dropped because the
rule is already enabled, while its synthetic revert is kept — and that
single event opens a suppression interval reaching the end-of-file
sentinel rather than having no effect. -/
theorem C4_enable_line_opens_interval (m : RulesMap) (name : String) (L : Nat)
    (h : (mapLookup m name).getD [] = []) :
    mapLookup (handleRules "line" true L [name] m) name
      = some [⟨false, L⟩]
    ∧ mapLookup (handleRules "next-line" true L [name] m) name
      = some [⟨false, L + 1⟩]
    ∧ getIntervalsForRule name [⟨false, L⟩] = [⟨name, L, maxInt32⟩] := by
  have step : ∀ line : Nat, handleConfig (handleConfig m true line name) false line name
      = mapInsert (mapInsert m name []) name [⟨false, line⟩] := by
    intro line
    have h1 : handleConfig m true line name = mapInsert m name [] := by
      simp [handleConfig, h]
    rw [h1]
    simp [handleConfig, mapLookup_mapInsert_self, lastEnabledIs]
  refine ⟨?_, ?_, ?_⟩
  · have hr : handleRules "line" true L [name] m
        = handleConfig (handleConfig m true L name) false L name := by
      simp [handleRules]
    rw [hr, step L, mapLookup_mapInsert_self]
  · have hr : handleRules "next-line" true L [name] m
        = handleConfig (handleConfig m true (L + 1) name) false (L + 1) name := by
      simp [handleRules]
    rw [hr, step (L + 1), mapLookup_mapInsert_self]
  · rw [getIntervalsForRule_eq_specPairing]
    rfl

/-- Witness for C4: from an empty map, `enable-line` at line 7 for rule
`a` records the single disable event at line 7 with its open interval. -/
theorem C4_enable_line_opens_interval_witness :
    mapLookup (handleRules "line" true 7 ["a"] []) "a" = some [⟨false, 7⟩]
    ∧ getIntervalsForRule "a" [⟨false, 7⟩] = [⟨"a", 7, maxInt32⟩] := by
  have h := C4_enable_line_opens_interval [] "a" 7 rfl
  exact ⟨h.1, h.2.2⟩

/-- C5: on a file with no suppression-directive comments, the output of
`lint` is the concatenation, in the caller-supplied rule order, of each
rule's raw failures stamped with the current rule's name when missing and
with the resolved range when they carry a node. -/
theorem C5_no_directives (rules : List Rule) (rulesConfig : RulesConfig)
    (toPos : Node → FailurePosition) (comments : List Comment)
    (h : ∀ c ∈ comments, c.parsed = none) :
    lint rules rulesConfig toPos comments
      = (rules.map (fun r =>
          (r.apply (rulesConfig r.name)).map (stampFailure r.name toPos))).flatten := by
  have hscan : ∀ (cs : List Comment) (m : RulesMap), (∀ c ∈ cs, c.parsed = none) →
      cs.foldl (handleComment rules) m = m := by
    intro cs
    induction cs with
    | nil => intro m _; rfl
    | cons c cs ih =>
      intro m hall
      rw [List.foldl_cons]
      have hc : c.parsed = none := hall c (List.mem_cons_self _ _)
      have hstep : handleComment rules m c = m := by simp [handleComment, hc]
      rw [hstep]
      exact ih m (fun x hx => hall x (List.mem_cons_of_mem _ hx))
  simp only [lint, disabledIntervals, hscan comments [] h, getEnabledDisabledIntervals,
    List.map_nil, filterFailures_nil_map]

/-- Witness for C5: a file with no comments and the one registered rule
`a` yields exactly rule `a`'s stamped raw failures. -/
theorem C5_no_directives_witness :
    lint [ruleA] (fun _ => []) (fun _ => ⟨0, 0⟩) []
      = ([ruleA].map (fun r =>
          (r.apply ((fun _ => []) r.name)).map
            (stampFailure r.name (fun _ => ⟨0, 0⟩)))).flatten :=
  C5_no_directives [ruleA] (fun _ => []) (fun _ => ⟨0, 0⟩) [] (by simp)

/-- C6: a directive whose parsed rule-name list is empty is recorded via
`handleRules` for exactly the names of the rules registered for the
current pass — resolved against the rule list passed in — and the
accumulated history of every name outside that list is untouched. -/
theorem C6_empty_rule_names (rules : List Rule) (m : RulesMap) (c : Comment)
    (d : Directive) (hc : c.parsed = some d) (hempty : d.ruleNames = []) :
    handleComment rules m c
      = handleRules d.modifier d.enabled c.line (rules.map Rule.name) m
    ∧ ∀ name, name ∉ rules.map Rule.name →
        mapLookup (handleComment rules m c) name = mapLookup m name := by
  have h1 : handleComment rules m c
      = handleRules d.modifier d.enabled c.line (rules.map Rule.name) m := by
    simp [handleComment, hc, hempty]
  refine ⟨h1, fun name hn => ?_⟩
  rw [h1]
  exact mapLookup_handleRules_of_not_mem _ _ _ _ _ _ hn

/-- Witness for C6: an all-rules `disable` at line 4 with rule `a`
registered equals recording it for `["a"]`, and the history of the
unregistered name `b` stays absent. -/
theorem C6_empty_rule_names_witness :
    handleComment [ruleA] [] ⟨4, some ⟨false, "", []⟩⟩
      = handleRules "" false 4 ["a"] []
    ∧ mapLookup (handleComment [ruleA] [] ⟨4, some ⟨false, "", []⟩⟩) "b" = none := by
  have h := C6_empty_rule_names [ruleA] [] ⟨4, some ⟨false, "", []⟩⟩ ⟨false, "", []⟩ rfl rfl
  exact ⟨h.1, by rw [h.2 "b" (by decide)]; rfl⟩

/-- C7 counterexample: `disable` for rule `a` at line 3 and again at line
5, with no `enable` anywhere — the second disable (appended by the
`len > 1` dedup guard) lands at odd index and closes the interval, so the
rule's intervals are `[[3, 5]]` and the rule-`a` failure on line 9, though
on a line at or beyond the directive's line 3, survives the filter. -/
theorem C7_counterexample :
    mapLookup (disabledIntervals [ruleA] commentsTwoDisables) "a"
      = some [⟨"a", 3, 5⟩]
    ∧ (3 : Nat) ≤ failLine9.position.startLine
    ∧ filterFailures [failLine9] (disabledIntervals [ruleA] commentsTwoDisables)
        = [failLine9] := by
  refine ⟨by decide, by decide, by decide⟩

/-- C7 amended: when the unmatched `disable` at line `L` lands at an even
index of the rule's history (even-length history before it, the normal
alternating case), the unclosed interval is no error: the trailing event
contributes a final interval from `L` to the maximal-line sentinel, and
every failure of the rule whose span ends on a line at or beyond `L` (and
at most the sentinel) is suppressed for the rest of the file. -/
theorem C7_unclosed_disable (name : String) (arr : List EnableDisableConfig) (L : Nat)
    (hev : arr.length % 2 = 0) :
    getIntervalsForRule name (arr ++ [⟨false, L⟩])
      = getIntervalsForRule name arr ++ [⟨name, L, maxInt32⟩]
    ∧ (∀ (fail : Failure) (dis : DisabledIntervalsMap),
        mapLookup dis fail.ruleName
          = some (getIntervalsForRule name (arr ++ [⟨false, L⟩])) →
        L ≤ fail.position.endLine → fail.position.endLine ≤ maxInt32 →
        filterFailures [fail] dis = []) := by
  have h1 : getIntervalsForRule name (arr ++ [⟨false, L⟩])
      = getIntervalsForRule name arr ++ [⟨name, L, maxInt32⟩] := by
    rw [getIntervalsForRule_eq_specPairing, getIntervalsForRule_eq_specPairing,
      specPairing_append_of_even name arr [⟨false, L⟩] hev]
    rfl
  refine ⟨h1, ?_⟩
  intro fail dis hdis hL hmax
  have hany : ((getIntervalsForRule name (arr ++ [⟨false, L⟩])).any (fun interval =>
      overlaps fail.position.startLine fail.position.endLine
        interval.fromLine interval.toLine)) = true := by
    rw [h1, List.any_append]
    simp [overlaps, hL, hmax]
  rw [filterFailures_singleton fail dis _ hdis, if_pos hany]

/-- Witness for C7: a lone `disable` at line 3 for rule `a` suppresses the
rule-`a` failure on line 9. -/
theorem C7_unclosed_disable_witness :
    filterFailures [failLine9] [("a", getIntervalsForRule "a" [⟨false, 3⟩])] = [] := by
  have h := C7_unclosed_disable "a" [] 3 rfl
  exact h.2 failLine9 [("a", getIntervalsForRule "a" [⟨false, 3⟩])] (by rfl)
    (by decide) (by decide)

/-- C10: when the re-evaluation of the rendered expression fails,
`IsUntypedConst` recovers locally and answers "cannot determine" — the
empty type name and `false` — instead of escalating the error. -/
theorem C10_eval_error_recovered (eval : Expr → EvalOutcome) (expr : Expr)
    (h : eval expr = EvalOutcome.err) :
    IsUntypedConst eval expr = ("", false) := by
  simp [IsUntypedConst, h]

/-- Witness for C10: an evaluator that always fails makes `IsUntypedConst`
answer `("", false)` on expression `0`. -/
theorem C10_eval_error_recovered_witness :
    (fun _ : Expr => EvalOutcome.err) 0 = EvalOutcome.err
    ∧ IsUntypedConst (fun _ : Expr => EvalOutcome.err) 0 = ("", false) :=
  ⟨rfl, C10_eval_error_recovered (fun _ : Expr => EvalOutcome.err) 0 rfl⟩

/-! ### Shared helpers for the scoped-directive claims -/

theorem lastEnabledIs_concat (l : List EnableDisableConfig) (c : EnableDisableConfig)
    (b : Bool) : lastEnabledIs (l ++ [c]) b = (c.enabled == b) := by
  simp [lastEnabledIs, List.getLast?_concat]

/-- A `disable` toggle and its immediate revert, both at line `L`, are
appended whole to a history that is empty or ends with an enable event. -/
theorem handleConfig_pair_append (m : RulesMap) (name : String) (L : Nat)
    (prior : List EnableDisableConfig)
    (hm : (mapLookup m name).getD [] = prior)
    (hlast : prior = [] ∨ (prior.getLast?).map EnableDisableConfig.enabled = some true) :
    mapLookup (handleConfig (handleConfig m false L name) true L name) name
      = some (prior ++ [⟨false, L⟩, ⟨true, L⟩]) := by
  have hle : lastEnabledIs prior false = false := by
    rcases hlast with rfl | hl
    · rfl
    · unfold lastEnabledIs
      cases hg : prior.getLast? with
      | none => rfl
      | some cfg =>
        rw [hg] at hl
        simp at hl
        simp [hl]
  have hfirst : handleConfig m false L name
      = mapInsert m name (prior ++ [⟨false, L⟩]) := by
    have hnot : ¬ ((1 < prior.length ∧ lastEnabledIs prior false = true)
        ∨ (prior.length = 0 ∧ (false : Bool) = true)) := by
      rintro (⟨-, hc⟩ | ⟨-, hc⟩)
      · rw [hle] at hc
        exact Bool.false_ne_true hc
      · exact Bool.false_ne_true hc
    simp only [handleConfig, hm]
    rw [if_neg hnot]
  have hle2 : lastEnabledIs (prior ++ [⟨false, L⟩]) true = false := by
    rw [lastEnabledIs_concat]
    rfl
  have hsecond : handleConfig (mapInsert m name (prior ++ [⟨false, L⟩])) true L name
      = mapInsert (mapInsert m name (prior ++ [⟨false, L⟩])) name
          ((prior ++ [⟨false, L⟩]) ++ [⟨true, L⟩]) := by
    have hnot : ¬ ((1 < (prior ++ [(⟨false, L⟩ : EnableDisableConfig)]).length
          ∧ lastEnabledIs (prior ++ [(⟨false, L⟩ : EnableDisableConfig)]) true = true)
        ∨ ((prior ++ [(⟨false, L⟩ : EnableDisableConfig)]).length = 0 ∧ True)) := by
      rintro (⟨-, hc⟩ | ⟨hc, -⟩)
      · rw [hle2] at hc
        exact Bool.false_ne_true hc
      · simp at hc
    simp only [handleConfig, mapLookup_mapInsert_self, Option.getD_some]
    rw [if_neg hnot]
  rw [hfirst, hsecond, mapLookup_mapInsert_self, List.append_assoc]
  rfl

/-- An even-length history followed by a toggle-and-revert pair at line
`L` contributes exactly the one-line interval `[L, L]`. -/
theorem specPairing_pair_append (name : String) (prior : List EnableDisableConfig)
    (L : Nat) (e₁ e₂ : Bool) (hev : prior.length % 2 = 0) :
    specPairing name (prior ++ [⟨e₁, L⟩, ⟨e₂, L⟩])
      = specPairing name prior ++ [⟨name, L, L⟩] := by
  rw [specPairing_append_of_even name prior [⟨e₁, L⟩, ⟨e₂, L⟩] hev]
  rfl

/-! ### Corrected claims -/

/-- C1 counterexample: two consecutive no-modifier `disable` directives at
lines 3 and 5 for rule `a` — the second is appended although the rule's
accumulated state is already disabled (the dedup guard requires more than
one prior event), so the interval set `{[3, 5]}` differs from the `{[3,
sentinel]}` of a single `disable`. -/
theorem C1_counterexample :
    mapLookup (disabledIntervals [ruleA] commentsTwoDisables) "a"
      = some [⟨"a", 3, 5⟩]
    ∧ mapLookup (disabledIntervals [ruleA] commentsOneDisable) "a"
      = some [⟨"a", 3, maxInt32⟩]
    ∧ mapLookup (disabledIntervals [ruleA] commentsTwoDisables) "a"
      ≠ mapLookup (disabledIntervals [ruleA] commentsOneDisable) "a" := by
  refine ⟨by decide, by decide, by decide⟩

/-- C1 amended: a toggle is skipped only when the rule's accumulated list
has more than one event and already ends in the requested state (or is
empty with an enable request); so from the second accumulated event on,
repeating the current state leaves the map unchanged, while a second
consecutive `disable` (one accumulated event) is appended and closes the
interval: two `disable`s at lines 3 and 5 yield `{[3, 5]}`, not the
`{[3, sentinel]}` of a single `disable`. -/
theorem C1_amended :
    (∀ (m : RulesMap) (name : String) (s : Bool) (line : Nat),
      1 < ((mapLookup m name).getD []).length →
      (((mapLookup m name).getD []).getLast?).map EnableDisableConfig.enabled = some s →
      handleConfig m s line name = m)
    ∧ mapLookup (disabledIntervals [ruleA] commentsTwoDisables) "a" = some [⟨"a", 3, 5⟩] := by
  constructor
  · intro m name s line h1 h2
    have hex : mapLookup m name = some ((mapLookup m name).getD []) := by
      cases hm : mapLookup m name with
      | none => rw [hm] at h1; simp at h1
      | some l => rfl
    have hlast : lastEnabledIs ((mapLookup m name).getD []) s = true := by
      unfold lastEnabledIs
      cases hg : ((mapLookup m name).getD []).getLast? with
      | none => rw [hg] at h2; simp at h2
      | some cfg =>
        rw [hg] at h2
        simp at h2
        simp [h2]
    simp only [handleConfig]
    rw [if_pos (Or.inl ⟨h1, hlast⟩)]
    exact mapInsert_eq_self_of_lookup m name _ hex
  · decide

/-- Witness for the amended C1: a third consecutive `disable` (history of
two disable events) leaves the map unchanged. -/
theorem C1_amended_witness :
    (1 : Nat) <
      (((mapLookup ([("a", [⟨false, 3⟩, ⟨false, 5⟩])] : RulesMap) "a").getD []).length)
    ∧ handleConfig ([("a", [⟨false, 3⟩, ⟨false, 5⟩])] : RulesMap) false 9 "a"
        = ([("a", [⟨false, 3⟩, ⟨false, 5⟩])] : RulesMap) :=
  ⟨by decide,
    C1_amended.1 ([("a", [⟨false, 3⟩, ⟨false, 5⟩])] : RulesMap) "a" false 9
      (by decide) (by decide)⟩

/-- C3 counterexample: a `disable-next-line` at line 10 followed by a
plain `disable` at line 11 for rule `a` produces the interval list
`[[11, 11], [11, sentinel]]`, whose two adjacent intervals both contain
line 11 — the list is not a set of non-overlapping intervals. -/
theorem C3_counterexample :
    mapLookup (disabledIntervals [ruleA] commentsSharedBoundary) "a"
      = some [⟨"a", 11, 11⟩, ⟨"a", 11, maxInt32⟩]
    ∧ ((⟨"a", 11, 11⟩ : DisabledInterval).fromLine ≤ 11
        ∧ 11 ≤ (⟨"a", 11, 11⟩ : DisabledInterval).toLine)
    ∧ ((⟨"a", 11, maxInt32⟩ : DisabledInterval).fromLine ≤ 11
        ∧ 11 ≤ (⟨"a", 11, maxInt32⟩ : DisabledInterval).toLine) := by
  refine ⟨by decide, by decide, by decide⟩

/-- C3 amended: the construction pairs the toggle list by index — each
even-index event opens an interval at its line, the following odd-index
event closes it, an odd-length list leaves the last `To` at the sentinel
(this is exactly `specPairing`) — and when the event lines are
non-decreasing and at most the sentinel, the intervals are weakly ordered
(`From ≤ To` within each, `To ≤` the next `From`), adjacent intervals
possibly sharing a single boundary line. -/
theorem C3_amended (name : String) (arr : List EnableDisableConfig)
    (hmono : List.Chain' (fun a b => a.position ≤ b.position) arr)
    (hmax : ∀ c ∈ arr, c.position ≤ maxInt32) :
    getIntervalsForRule name arr = specPairing name arr
    ∧ intervalsOrdered (getIntervalsForRule name arr) := by
  refine ⟨getIntervalsForRule_eq_specPairing name arr, ?_⟩
  rw [getIntervalsForRule_eq_specPairing]
  exact specPairing_ordered name arr hmono hmax

/-- Witness for the amended C3: the three-event history disable@3,
enable@5, disable@9 yields the pairing `[[3, 5], [9, sentinel]]`, weakly
ordered. -/
theorem C3_amended_witness :
    getIntervalsForRule "a" [⟨false, 3⟩, ⟨true, 5⟩, ⟨false, 9⟩]
      = specPairing "a" [⟨false, 3⟩, ⟨true, 5⟩, ⟨false, 9⟩]
    ∧ intervalsOrdered (getIntervalsForRule "a" [⟨false, 3⟩, ⟨true, 5⟩, ⟨false, 9⟩]) :=
  C3_amended "a" [⟨false, 3⟩, ⟨true, 5⟩, ⟨false, 9⟩]
    (by simp [List.chain'_cons]) (by decide)

/-- C8 counterexample: with only `disable-line` at line 5 for rule `a`
(interval `[5, 5]`), the rule-`a` failure spanning lines 4–6 touches line
5 yet survives the filter — the claim's "exactly the diagnostics whose
line range touches line L" fails for a span that strictly contains the
line. -/
theorem C8_counterexample :
    mapLookup (disabledIntervals [ruleA] commentsDisableLine5) "a"
      = some [⟨"a", 5, 5⟩]
    ∧ (failSpan46.position.startLine ≤ 5 ∧ 5 ≤ failSpan46.position.endLine)
    ∧ filterFailures [failSpan46] (disabledIntervals [ruleA] commentsDisableLine5)
        = [failSpan46] := by
  refine ⟨by decide, by decide, by decide⟩

/-- C8 amended: a `disable-line` directive at line `L`, for a rule whose
accumulated history has even length and is empty or ends with an enable
event, appends the two synthetic toggle events at line `L` and contributes
exactly the interval `[L, L]`; that interval matches a failure iff the
failure's span starts or ends exactly at line `L`, so failures on other
lines — including spans that strictly contain `L` — are unaffected by it. -/
theorem C8_amended (m : RulesMap) (name : String) (L : Nat)
    (prior : List EnableDisableConfig)
    (hm : (mapLookup m name).getD [] = prior)
    (hev : prior.length % 2 = 0)
    (hlast : prior = [] ∨ (prior.getLast?).map EnableDisableConfig.enabled = some true) :
    mapLookup (handleRules "line" false L [name] m) name
      = some (prior ++ [⟨false, L⟩, ⟨true, L⟩])
    ∧ getIntervalsForRule name (prior ++ [⟨false, L⟩, ⟨true, L⟩])
      = getIntervalsForRule name prior ++ [⟨name, L, L⟩]
    ∧ (∀ s e : Nat, overlaps s e L L = true ↔ (s = L ∨ e = L)) := by
  refine ⟨?_, ?_, ?_⟩
  · have hr : handleRules "line" false L [name] m
        = handleConfig (handleConfig m false L name) true L name := by
      simp [handleRules]
    rw [hr]
    exact handleConfig_pair_append m name L prior hm hlast
  · rw [getIntervalsForRule_eq_specPairing, getIntervalsForRule_eq_specPairing]
    exact specPairing_pair_append name prior L false true hev
  · intro s e
    simp only [overlaps, ge_iff_le, Bool.or_eq_true, Bool.and_eq_true, decide_eq_true_eq]
    omega

/-- Witness for the amended C8: from an empty history, `disable-line` at
line 5 for rule `a` records the pair at line 5 and the single interval
`[5, 5]`. -/
theorem C8_amended_witness :
    mapLookup (handleRules "line" false 5 ["a"] []) "a"
      = some [⟨false, 5⟩, ⟨true, 5⟩]
    ∧ getIntervalsForRule "a" [⟨false, 5⟩, ⟨true, 5⟩]
        = getIntervalsForRule "a" [] ++ [⟨"a", 5, 5⟩] := by
  have h := C8_amended [] "a" 5 [] rfl rfl (Or.inl rfl)
  exact ⟨h.1, h.2.1⟩

/-- C9 counterexample: with only `disable-next-line` at line 10 for rule
`a` (interval `[11, 11]`), the rule-`a` failure spanning lines 10–12
touches line 11 yet survives the filter. -/
theorem C9_counterexample :
    mapLookup (disabledIntervals [ruleA] commentsDisableNextLine10) "a"
      = some [⟨"a", 11, 11⟩]
    ∧ (failSpan1012.position.startLine ≤ 11 ∧ 11 ≤ failSpan1012.position.endLine)
    ∧ filterFailures [failSpan1012] (disabledIntervals [ruleA] commentsDisableNextLine10)
        = [failSpan1012] := by
  refine ⟨by decide, by decide, by decide⟩

/-- C9 amended: a `disable-next-line` directive at line `L`, for a rule
whose accumulated history has even length and is empty or ends with an
enable event, places both synthetic toggle events at line `L + 1` and
contributes exactly the interval `[L+1, L+1]`; that interval matches a
failure iff the failure's span starts or ends exactly at line `L + 1`, so
failures on other lines — including spans strictly containing `L + 1` —
are unaffected by it. -/
theorem C9_amended (m : RulesMap) (name : String) (L : Nat)
    (prior : List EnableDisableConfig)
    (hm : (mapLookup m name).getD [] = prior)
    (hev : prior.length % 2 = 0)
    (hlast : prior = [] ∨ (prior.getLast?).map EnableDisableConfig.enabled = some true) :
    mapLookup (handleRules "next-line" false L [name] m) name
      = some (prior ++ [⟨false, L + 1⟩, ⟨true, L + 1⟩])
    ∧ getIntervalsForRule name (prior ++ [⟨false, L + 1⟩, ⟨true, L + 1⟩])
      = getIntervalsForRule name prior ++ [⟨name, L + 1, L + 1⟩]
    ∧ (∀ s e : Nat, overlaps s e (L + 1) (L + 1) = true ↔ (s = L + 1 ∨ e = L + 1)) := by
  refine ⟨?_, ?_, ?_⟩
  · have hr : handleRules "next-line" false L [name] m
        = handleConfig (handleConfig m false (L + 1) name) true (L + 1) name := by
      simp [handleRules]
    rw [hr]
    exact handleConfig_pair_append m name (L + 1) prior hm hlast
  · rw [getIntervalsForRule_eq_specPairing, getIntervalsForRule_eq_specPairing]
    exact specPairing_pair_append name prior (L + 1) false true hev
  · intro s e
    simp only [overlaps, ge_iff_le, Bool.or_eq_true, Bool.and_eq_true, decide_eq_true_eq]
    omega

/-- Witness for the amended C9: from an empty history, `disable-next-line`
at line 10 for rule `a` records the pair at line 11 and the single
interval `[11, 11]`. -/
theorem C9_amended_witness :
    mapLookup (handleRules "next-line" false 10 ["a"] []) "a"
      = some [⟨false, 11⟩, ⟨true, 11⟩]
    ∧ getIntervalsForRule "a" [⟨false, 11⟩, ⟨true, 11⟩]
        = getIntervalsForRule "a" [] ++ [⟨"a", 11, 11⟩] := by
  have h := C9_amended [] "a" 10 [] rfl rfl (Or.inl rfl)
  exact ⟨h.1, h.2.1⟩

end CCLint
